import Mathlib

/-!
# Verification of `size_utils.py` (python_utils repository)

A shallow embedding of the size-string parsing/formatting module
`src/size_utils.py` and proofs of the specification claims about it.

Modelling conventions:

* Python `str` values are modelled as `List Char` (and `String` at the
  public boundary), restricted to the ASCII behaviour of `str.strip`,
  `str.upper`, `\d` and `\s` — all inputs appearing in the module's
  documented domain are ASCII.
* Python `float` arithmetic is modelled by exact rational arithmetic
  (`ℚ`).  For every value the module manipulates within its documented
  1 PB domain the intermediate quantities are dyadic rationals whose
  numerators fit well below 2^53, so the IEEE-754 doubles used by the
  Python code represent them exactly and the rational model agrees
  with the code.
* `InvalidSizeFormatError` is a single Python exception class raised
  with different messages; each raise site is modelled by a distinct
  constructor of `SizeError` so that claims about which branch fires
  can be stated.
* Non-string input to `parse_size_to_bytes` (line 52) is modelled by
  the `PyInput.nonString` constructor.
-/

namespace SizeUtils

/-! ## Character classes (ASCII models of `\d`, `\s`, `str.upper`) -/

/-- ASCII decimal digit test, the model of the regex class `\d`
(and of `Char.isDigit`, stated on code points for arithmetic reasoning). -/
def isDigitC (c : Char) : Bool :=
  48 ≤ c.toNat && c.toNat ≤ 57

/-- ASCII whitespace test: the model of Python's `\s` class and of the
character set stripped by `str.strip` (space, tab, newline, vertical
tab, form feed, carriage return). -/
def isPySpace (c : Char) : Bool :=
  c.toNat = 32 || c.toNat = 9 || c.toNat = 10 || c.toNat = 11 ||
    c.toNat = 13 || c.toNat = 12

/-- ASCII model of `str.upper` on a single character: lower-case basic
latin letters are shifted down by 32, everything else is unchanged. -/
def pyUpperChar (c : Char) : Char :=
  if 97 ≤ c.toNat ∧ c.toNat ≤ 122 then Char.ofNat (c.toNat - 32) else c

/-- Python `str.strip()`: drop leading and trailing whitespace. -/
def pyStrip (l : List Char) : List Char :=
  ((l.dropWhile isPySpace).reverse.dropWhile isPySpace).reverse

/-- Python `str.rstrip(ch)` for a single strip character. -/
def pyRstrip (l : List Char) (ch : Char) : List Char :=
  (l.reverse.dropWhile (fun c => c = ch)).reverse

/-- Model of `size_str.strip().upper()` — the normalisation at line 56 of
`size_utils.py`. -/
def normalize (s : String) : List Char :=
  (pyStrip s.data).map pyUpperChar

/-! ## Digit strings and decimal values -/

/-- The decimal digit character for `n < 10` (used when printing). -/
def digitChar : Nat → Char
  | 0 => '0' | 1 => '1' | 2 => '2' | 3 => '3' | 4 => '4'
  | 5 => '5' | 6 => '6' | 7 => '7' | 8 => '8' | _ => '9'

/-- Decimal digit string of a natural number (most significant first),
the model of Python's `str`/`format` integer printing. -/
def natToDigits (n : Nat) : List Char :=
  if h : n < 10 then [digitChar n]
  else natToDigits (n / 10) ++ [digitChar (n % 10)]
decreasing_by exact Nat.div_lt_self (Nat.lt_of_lt_of_le (by norm_num) (Nat.le_of_not_lt h)) (by norm_num)

/-- Numeric value of a decimal digit string (the model of the integer
part of Python's `float` conversion of a `\d+` token). -/
def digitsToNat (l : List Char) : Nat :=
  l.foldl (fun a c => 10 * a + (c.toNat - 48)) 0

/-! ## The regex `^(\d+(?:\.\d+)?)\s*([KMGT]?B)$` (line 62) -/

/-- The five unit tokens the regex group `([KMGT]?B)` can produce. -/
def unitTokens : List (List Char) :=
  [['B'], ['K', 'B'], ['M', 'B'], ['G', 'B'], ['T', 'B']]

/-- The `(\.\d+)?` part of the numeric group: given the digits `ds`
already consumed and the remaining input, extend the numeric token by
a decimal point and at least one digit when possible (regex groups are
greedy; when no digit follows the point the optional group matches
nothing). -/
def matchNum (ds rest : List Char) : List Char × List Char :=
  match rest with
  | [] => (ds, rest)
  | c :: r =>
    if c = '.' ∧ r.takeWhile isDigitC ≠ [] then
      (ds ++ '.' :: r.takeWhile isDigitC, r.dropWhile isDigitC)
    else (ds, rest)

/-- Deterministic matcher for the anchored regex
`^(\d+(?:\.\d+)?)\s*([KMGT]?B)$` of line 62: on success it returns the
two capture groups (the numeric token and the unit token).  Greedy
matching is equivalent to regex backtracking semantics here because a
digit can continue neither the whitespace run nor a unit token. -/
def matchSize (cs : List Char) : Option (List Char × List Char) :=
  let ds := cs.takeWhile isDigitC
  let pr := matchNum ds (cs.dropWhile isDigitC)
  let rest3 := pr.2.dropWhile isPySpace
  if ds = [] then none
  else if rest3 ∈ unitTokens then some (pr.1, rest3) else none

/-- Exact value of a numeric token of the shape `\d+(\.\d+)?`: the model
of `float(value_str)` at line 71 (`none` models `ValueError`; the
argument always has the matched shape, so in the program this never
fires). -/
def strToRat (cs : List Char) : Option ℚ :=
  let ds := cs.takeWhile isDigitC
  if ds = [] then none
  else
    match cs.dropWhile isDigitC with
    | [] => some (digitsToNat ds : ℚ)
    | c :: r =>
      if c = '.' ∧ r ≠ [] ∧ r.all isDigitC then
        some ((digitsToNat ds : ℚ) + (digitsToNat r : ℚ) / 10 ^ r.length)
      else none

/-! ## Units (lines 17–27) -/

/-- The `SIZE_UNITS` dictionary: unit name → binary multiplier. -/
def SIZE_UNITS : List (List Char × Nat) :=
  [(['B'], 1), (['K', 'B'], 1024), (['M', 'B'], 1024 ^ 2),
   (['G', 'B'], 1024 ^ 3), (['T', 'B'], 1024 ^ 4)]

/-- Dictionary lookup `SIZE_UNITS[unit]` / `unit in SIZE_UNITS`. -/
def sizeUnits? (u : List Char) : Option Nat :=
  SIZE_UNITS.lookup u

/-- The `UNIT_ORDER` list — descending scan order for formatting (line 27). -/
def UNIT_ORDER : List (List Char) :=
  [['T', 'B'], ['G', 'B'], ['M', 'B'], ['K', 'B'], ['B']]

/-! ## Error kinds and results -/

/-- One constructor per `raise InvalidSizeFormatError` site; all model
the single Python exception class `InvalidSizeFormatError`. -/
inductive SizeError where
  /-- line 53: input is not a string -/
  | notString
  /-- line 59: empty after stripping -/
  | empty
  /-- line 66: regex mismatch -/
  | badFormat
  /-- line 73: `float` conversion failed -/
  | badNumeric
  /-- line 76: negative magnitude -/
  | negative
  /-- line 79: unit not in `SIZE_UNITS` -/
  | badUnit
  /-- line 86: result exceeds `1024 ** 5` -/
  | tooLarge
  /-- line 114: negative byte count given to the formatter -/
  | negativeBytes
deriving DecidableEq

/-- Result of `parse_size_to_bytes`: a byte count or a raised error. -/
inductive PRes where
  | ok (n : ℤ)
  | err (e : SizeError)
deriving DecidableEq

/-- Result of `bytes_to_human_readable`: a string or a raised error. -/
inductive FRes where
  | ok (s : List Char)
  | err (e : SizeError)
deriving DecidableEq

/-- Argument of `parse_size_to_bytes`: a Python string, or any
non-string value (which `isinstance` rejects at line 52). -/
inductive PyInput where
  | str (s : String)
  | nonString

/-- Python `int()` applied to a rational: truncation toward zero. -/
def ratTrunc (q : ℚ) : ℤ :=
  if q < 0 then -⌊-q⌋ else ⌊q⌋

/-! ## `parse_size_to_bytes` (lines 30–88) -/

/-- Body of `parse_size_to_bytes` after the `isinstance` check and the
normalisation of line 56: empty check (line 58), regex (lines 62–66),
numeric conversion (lines 70–73), sign check (line 75), unit lookup
(line 78), multiplication (line 82), overflow check (line 85) and
truncation (line 88). -/
def parseCore (t : List Char) : PRes :=
  if t = [] then .err .empty
  else
    match matchSize t with
    | none => .err .badFormat
    | some (valueStr, unit) =>
      match strToRat valueStr with
      | none => .err .badNumeric
      | some value =>
        if value < 0 then .err .negative
        else
          match sizeUnits? unit with
          | none => .err .badUnit
          | some mult =>
            let bytesValue : ℚ := value * mult
            if (1024 : ℚ) ^ 5 < bytesValue then .err .tooLarge
            else .ok (ratTrunc bytesValue)

/-- Shallow embedding of `parse_size_to_bytes`. -/
def parse_size_to_bytes : PyInput → PRes
  | .nonString => .err .notString
  | .str s => parseCore (normalize s)

/-! ## `bytes_to_human_readable` (lines 91–131) -/

/-- Round a rational to the nearest integer, ties to even — the
rounding Python's fixed-point float formatting performs. -/
def roundHalfEven (x : ℚ) : ℤ :=
  let n := ⌊x⌋
  let r := x - n
  if r < 1 / 2 then n
  else if 1 / 2 < r then n + 1
  else if 2 ∣ n then n else n + 1

/-- Model of the f-string `f"{value:.{decimal_places}f}"` for a
non-negative value: round to `d` fractional digits, print the integer
part, and (when `d > 0`) a point and exactly `d` fraction digits. -/
def formatFixed (q : ℚ) (d : Nat) : List Char :=
  let scaled := (roundHalfEven (q * 10 ^ d)).toNat
  if d = 0 then natToDigits scaled
  else
    natToDigits (scaled / 10 ^ d) ++
      '.' :: (List.replicate (d - (natToDigits (scaled % 10 ^ d)).length) '0' ++
        natToDigits (scaled % 10 ^ d))

/-- Model of `.rstrip('0').rstrip('.')` applied to the fixed-point image
(line 127). -/
def stripTrail (l : List Char) : List Char :=
  pyRstrip (pyRstrip l '0') '.'

/-- The string returned for byte count `b` displayed in unit `u` of
size `usize` (the body of the loop at lines 122–128). -/
def fmtEntry (b usize : Nat) (u : List Char) (d : Nat) : List Char :=
  stripTrail (formatFixed ((b : ℚ) / usize) d) ++ ' ' :: u

/-- The `for unit in UNIT_ORDER` loop of lines 122–128: return the
formatted string for the first unit whose size is `≤ b`, or `none`
when the loop falls through. -/
def humanLoop (b d : Nat) : List (List Char) → Option (List Char)
  | [] => none
  | u :: rest =>
    let usize := (sizeUnits? u).getD 0
    if usize ≤ b then some (fmtEntry b usize u d) else humanLoop b d rest

/-- Shallow embedding of `bytes_to_human_readable`.  The Python
function also accepts floats (truncated by `int()` at line 116) and
rejects non-numeric input; the model takes the already-truncated
integer. -/
def bytes_to_human_readable (bytesCount : ℤ) (decimalPlaces : Nat) : FRes :=
  if bytesCount < 0 then .err .negativeBytes
  else
    let b := bytesCount.toNat
    if b = 0 then .ok "0 B".data
    else
      match humanLoop b decimalPlaces UNIT_ORDER with
      | some out => .ok out
      | none => .ok (natToDigits b ++ ' ' :: ['B'])

/-! ## `validate_size_string` (lines 134–156) -/

/-- Shallow embedding of `validate_size_string`: call the parser and
convert the `InvalidSizeFormatError` into `False`. -/
def validate_size_string (inp : PyInput) : Bool :=
  match parse_size_to_bytes inp with
  | .ok _ => true
  | .err _ => false

/-! ## The declarative reading of the regex

`GrammarMatch cs num u` says that `cs` decomposes as required by
`^(\d+(\.\d+)?)\s*([KMGT]?B)$`, with capture groups `num` and `u`. -/

/-- A non-empty string of ASCII digits. -/
def IsDigits (l : List Char) : Prop :=
  l ≠ [] ∧ ∀ c ∈ l, isDigitC c = true

/-- The numeric token shape `\d+(\.\d+)?`. -/
def NumShape (num : List Char) : Prop :=
  IsDigits num ∨ ∃ a b, num = a ++ '.' :: b ∧ IsDigits a ∧ IsDigits b

/-- Declarative semantics of the anchored regex of line 62. -/
def GrammarMatch (cs num u : List Char) : Prop :=
  ∃ ws, cs = num ++ ws ++ u ∧ NumShape num ∧
    (∀ c ∈ ws, isPySpace c = true) ∧ u ∈ unitTokens

/-! ## Character-level lemmas -/

theorem char_eq_of_toNat_eq {a b : Char} (h : a.toNat = b.toNat) : a = b :=
  Char.ext (UInt32.toNat.inj h)

theorem toNat_charOfNat {n : Nat} (h : n < 55296) : (Char.ofNat n).toNat = n := by
  have hv : n.isValidChar := Or.inl h
  rw [Char.ofNat, dif_pos hv]
  rfl

theorem pyUpperChar_toNat (c : Char) :
    (pyUpperChar c).toNat =
      if 97 ≤ c.toNat ∧ c.toNat ≤ 122 then c.toNat - 32 else c.toNat := by
  rw [pyUpperChar]
  split
  · next h => exact toNat_charOfNat (by omega)
  · rfl

theorem isPySpace_pyUpperChar (c : Char) :
    isPySpace (pyUpperChar c) = isPySpace c := by
  rw [isPySpace, isPySpace, pyUpperChar_toNat]
  split
  · next h =>
    rw [Bool.eq_iff_iff]
    simp only [Bool.or_eq_true, decide_eq_true_eq]
    omega
  · rfl

theorem pyUpperChar_eq_self {c : Char} (h : ¬(97 ≤ c.toNat ∧ c.toNat ≤ 122)) :
    pyUpperChar c = c := by
  rw [pyUpperChar, if_neg h]

theorem pyUpperChar_idem (c : Char) :
    pyUpperChar (pyUpperChar c) = pyUpperChar c := by
  by_cases h : 97 ≤ c.toNat ∧ c.toNat ≤ 122
  · have h2 : ¬(97 ≤ (pyUpperChar c).toNat ∧ (pyUpperChar c).toNat ≤ 122) := by
      rw [pyUpperChar_toNat, if_pos h]
      omega
    exact pyUpperChar_eq_self h2
  · rw [pyUpperChar_eq_self h, pyUpperChar_eq_self h]

theorem pyUpperChar_of_isDigitC {c : Char} (h : isDigitC c = true) :
    pyUpperChar c = c := by
  rw [isDigitC, Bool.and_eq_true, decide_eq_true_eq, decide_eq_true_eq] at h
  exact pyUpperChar_eq_self (by omega)

theorem not_isPySpace_of_isDigitC {c : Char} (h : isDigitC c = true) :
    isPySpace c = false := by
  rw [isDigitC, Bool.and_eq_true, decide_eq_true_eq, decide_eq_true_eq] at h
  rw [isPySpace]
  simp only [Bool.or_eq_false_iff, decide_eq_false_iff_not]
  omega

theorem not_isDigitC_of_isPySpace {c : Char} (h : isPySpace c = true) :
    isDigitC c = false := by
  rw [isPySpace] at h
  simp only [Bool.or_eq_true, decide_eq_true_eq] at h
  rw [isDigitC]
  simp only [Bool.and_eq_false_iff, decide_eq_false_iff_not]
  omega

theorem ne_dot_of_isDigitC {c : Char} (h : isDigitC c = true) : c ≠ '.' := by
  rw [isDigitC, Bool.and_eq_true, decide_eq_true_eq, decide_eq_true_eq] at h
  intro he
  subst he
  revert h
  decide

/-! ## List-level helper lemmas -/

theorem takeWhile_append_all {p : Char → Bool} {l1 : List Char} (l2 : List Char)
    (h : ∀ c ∈ l1, p c = true) :
    (l1 ++ l2).takeWhile p = l1 ++ l2.takeWhile p := by
  induction l1 with
  | nil => rfl
  | cons a t ih =>
    rw [List.cons_append, List.takeWhile_cons_of_pos (h a (by simp)), List.cons_append,
      ih fun c hc => h c (by simp [hc])]

theorem dropWhile_append_all {p : Char → Bool} {l1 : List Char} (l2 : List Char)
    (h : ∀ c ∈ l1, p c = true) :
    (l1 ++ l2).dropWhile p = l2.dropWhile p := by
  induction l1 with
  | nil => rfl
  | cons a t ih =>
    rw [List.cons_append, List.dropWhile_cons_of_pos (h a (by simp))]
    exact ih fun c hc => h c (by simp [hc])

theorem takeWhile_eq_nil_of_head {p : Char → Bool} {l : List Char}
    (h : ∀ c ∈ l.head?, p c = false) : l.takeWhile p = [] := by
  cases l with
  | nil => rfl
  | cons a t => exact List.takeWhile_cons_of_neg (by simp [h a (by simp)])

theorem dropWhile_eq_self_of_head {p : Char → Bool} {l : List Char}
    (h : ∀ c ∈ l.head?, p c = false) : l.dropWhile p = l := by
  cases l with
  | nil => rfl
  | cons a t => exact List.dropWhile_cons_of_neg (by simp [h a (by simp)])

theorem mem_dropWhile_of_mem {p : Char → Bool} {l : List Char} {c : Char}
    (hc : c ∈ l.dropWhile p) : c ∈ l := by
  have h2 : c ∈ l.takeWhile p ++ l.dropWhile p := List.mem_append_right _ hc
  rwa [List.takeWhile_append_dropWhile] at h2

/-! ## Digit-string lemmas -/

theorem natToDigits_eq (n : Nat) :
    natToDigits n =
      if n < 10 then [digitChar n]
      else natToDigits (n / 10) ++ [digitChar (n % 10)] := by
  rw [natToDigits]
  split
  · rfl
  · rfl

theorem isDigitC_digitChar (n : Nat) : isDigitC (digitChar n) = true := by
  rcases n with _ | _ | _ | _ | _ | _ | _ | _ | _ | n <;> rfl

theorem toNat_digitChar_sub {n : Nat} (h : n < 10) :
    (digitChar n).toNat - 48 = n := by
  interval_cases n <;> rfl

theorem natToDigits_ne_nil (n : Nat) : natToDigits n ≠ [] := by
  rw [natToDigits_eq]
  split
  · simp
  · simp

theorem isDigitC_of_mem_natToDigits :
    ∀ (n : Nat), ∀ c ∈ natToDigits n, isDigitC c = true := by
  intro n
  induction n using Nat.strong_induction_on with
  | _ n ih =>
    intro c hc
    rw [natToDigits_eq] at hc
    by_cases h : n < 10
    · rw [if_pos h] at hc
      simp only [List.mem_singleton] at hc
      subst hc
      exact isDigitC_digitChar n
    · rw [if_neg h] at hc
      rcases List.mem_append.mp hc with h1 | h1
      · exact ih (n / 10) (Nat.div_lt_self (by omega) (by norm_num)) c h1
      · simp only [List.mem_singleton] at h1
        subst h1
        exact isDigitC_digitChar (n % 10)

theorem foldl_digits_natToDigits (n : Nat) :
    ∀ a : Nat, (natToDigits n).foldl (fun a c => 10 * a + (c.toNat - 48)) a =
      a * 10 ^ (natToDigits n).length + n := by
  induction n using Nat.strong_induction_on with
  | _ n ih =>
    intro a
    rw [natToDigits_eq]
    by_cases h : n < 10
    · rw [if_pos h]
      simp [List.foldl, toNat_digitChar_sub h]
      ring
    · rw [if_neg h]
      rw [List.foldl_append]
      rw [ih (n / 10) (Nat.div_lt_self (by omega) (by norm_num)) a]
      simp only [List.foldl, List.length_append, List.length_singleton]
      rw [toNat_digitChar_sub (Nat.mod_lt n (by norm_num))]
      rw [pow_succ]
      have := Nat.div_add_mod n 10
      ring_nf
      omega

theorem digitsToNat_natToDigits (n : Nat) : digitsToNat (natToDigits n) = n := by
  rw [digitsToNat, foldl_digits_natToDigits n 0]
  simp

/-! ## Rounding and truncation lemmas -/

theorem floor_le_roundHalfEven (x : ℚ) : ⌊x⌋ ≤ roundHalfEven x := by
  rw [roundHalfEven]
  split
  · exact le_refl _
  · split
    · omega
    · split
      · exact le_refl _
      · omega

theorem roundHalfEven_le_floor_add_one (x : ℚ) : roundHalfEven x ≤ ⌊x⌋ + 1 := by
  rw [roundHalfEven]
  split
  · omega
  · split
    · exact le_refl _
    · split
      · omega
      · exact le_refl _

theorem abs_roundHalfEven_sub (x : ℚ) : |(roundHalfEven x : ℚ) - x| ≤ 1 / 2 := by
  have hfl : (⌊x⌋ : ℚ) ≤ x := Int.floor_le x
  have hfu : x < ⌊x⌋ + 1 := Int.lt_floor_add_one x
  rw [roundHalfEven]
  split
  · next h =>
    rw [abs_le]
    constructor <;> linarith
  · next h =>
    push_neg at h
    split
    · next h2 =>
      push_cast
      rw [abs_le]
      constructor <;> linarith
    · next h2 =>
      push_neg at h2
      split
      · rw [abs_le]
        constructor <;> linarith
      · push_cast
        rw [abs_le]
        constructor <;> linarith

theorem roundHalfEven_intCast (z : ℤ) : roundHalfEven (z : ℚ) = z := by
  rw [roundHalfEven]
  simp only [Int.floor_intCast, sub_self]
  rw [if_pos (by norm_num)]

theorem roundHalfEven_le_of_le {x : ℚ} {m : ℤ} (h : x ≤ m) :
    roundHalfEven x ≤ m := by
  rcases eq_or_lt_of_le h with he | hlt
  · subst he
    rw [roundHalfEven_intCast]
  · calc roundHalfEven x ≤ ⌊x⌋ + 1 := roundHalfEven_le_floor_add_one x
    _ ≤ m := by
        have : ⌊x⌋ < m := by
          rw [Int.floor_lt]
          exact_mod_cast hlt
        omega

theorem roundHalfEven_nonneg {x : ℚ} (h : 0 ≤ x) : 0 ≤ roundHalfEven x := by
  calc (0 : ℤ) ≤ ⌊x⌋ := by
        rw [Int.le_floor]
        exact_mod_cast h
  _ ≤ roundHalfEven x := floor_le_roundHalfEven x

theorem ratTrunc_of_nonneg {q : ℚ} (h : 0 ≤ q) : ratTrunc q = ⌊q⌋ := by
  rw [ratTrunc, if_neg (not_lt.mpr h)]

/-! ## `strToRat` lemmas -/

theorem strToRat_int {ds : List Char} (h1 : ds ≠ [])
    (h2 : ∀ c ∈ ds, isDigitC c = true) :
    strToRat ds = some (digitsToNat ds : ℚ) := by
  rw [strToRat]
  have ht : ds.takeWhile isDigitC = ds ++ [].takeWhile isDigitC := by
    have := takeWhile_append_all (p := isDigitC) [] h2
    rwa [List.append_nil] at this
  have hd : ds.dropWhile isDigitC = [].dropWhile isDigitC := by
    have := dropWhile_append_all (p := isDigitC) [] h2
    rwa [List.append_nil] at this
  simp only [List.takeWhile_nil, List.append_nil] at ht
  simp only [List.dropWhile_nil] at hd
  rw [ht, hd, if_neg h1]

theorem strToRat_dec {ds fs : List Char} (h1 : ds ≠ [])
    (h2 : ∀ c ∈ ds, isDigitC c = true) (h3 : fs ≠ [])
    (h4 : ∀ c ∈ fs, isDigitC c = true) :
    strToRat (ds ++ '.' :: fs) =
      some ((digitsToNat ds : ℚ) + (digitsToNat fs : ℚ) / 10 ^ fs.length) := by
  rw [strToRat]
  have ht : (ds ++ '.' :: fs).takeWhile isDigitC = ds := by
    rw [takeWhile_append_all _ h2, List.takeWhile_cons_of_neg (by decide),
      List.append_nil]
  have hd : (ds ++ '.' :: fs).dropWhile isDigitC = '.' :: fs := by
    rw [dropWhile_append_all _ h2, List.dropWhile_cons_of_neg (by decide)]
  rw [ht, hd, if_neg h1]
  show (if ('.' : Char) = '.' ∧ fs ≠ [] ∧ fs.all isDigitC = true then
      some ((digitsToNat ds : ℚ) + (digitsToNat fs : ℚ) / 10 ^ fs.length)
    else none) = _
  rw [if_pos ⟨rfl, h3, List.all_eq_true.mpr h4⟩]

/-! ## `matchSize` vs. the declarative grammar -/

theorem matchNum_nil (ds : List Char) : matchNum ds [] = (ds, []) := rfl

theorem matchNum_dot {ds r : List Char} (h : r.takeWhile isDigitC ≠ []) :
    matchNum ds ('.' :: r) =
      (ds ++ '.' :: r.takeWhile isDigitC, r.dropWhile isDigitC) := by
  rw [matchNum, if_pos ⟨rfl, h⟩]

theorem matchNum_plain {ds : List Char} {c : Char} {r : List Char}
    (h : ¬(c = '.' ∧ r.takeWhile isDigitC ≠ [])) :
    matchNum ds (c :: r) = (ds, c :: r) := by
  rw [matchNum, if_neg h]

theorem matchSize_eq (cs : List Char) :
    matchSize cs =
      if cs.takeWhile isDigitC = [] then none
      else if (matchNum (cs.takeWhile isDigitC)
          (cs.dropWhile isDigitC)).2.dropWhile isPySpace ∈ unitTokens then
        some ((matchNum (cs.takeWhile isDigitC) (cs.dropWhile isDigitC)).1,
          (matchNum (cs.takeWhile isDigitC)
            (cs.dropWhile isDigitC)).2.dropWhile isPySpace)
      else none := rfl

theorem unitTokens_shape {u : List Char} (hu : u ∈ unitTokens) :
    ∃ c r, u = c :: r ∧ isDigitC c = false ∧ isPySpace c = false ∧ c ≠ '.' := by
  fin_cases hu
  · exact ⟨'B', [], rfl, by decide, by decide, by decide⟩
  · exact ⟨'K', ['B'], rfl, by decide, by decide, by decide⟩
  · exact ⟨'M', ['B'], rfl, by decide, by decide, by decide⟩
  · exact ⟨'G', ['B'], rfl, by decide, by decide, by decide⟩
  · exact ⟨'T', ['B'], rfl, by decide, by decide, by decide⟩

theorem ne_dot_of_isPySpace {c : Char} (h : isPySpace c = true) : c ≠ '.' := by
  rw [isPySpace] at h
  simp only [Bool.or_eq_true, decide_eq_true_eq] at h
  intro he
  subst he
  revert h
  decide

theorem head_wsu_not_digit {ws u : List Char} (hws : ∀ c ∈ ws, isPySpace c = true)
    (hu : u ∈ unitTokens) :
    ∀ c ∈ (ws ++ u).head?, isDigitC c = false := by
  obtain ⟨c0, r, huc, hd0, _, _⟩ := unitTokens_shape hu
  cases ws with
  | nil =>
    intro c hc
    rw [huc] at hc
    simp only [List.nil_append, List.head?_cons, Option.mem_some_iff] at hc
    subst hc
    exact hd0
  | cons w t =>
    intro c hc
    simp only [List.cons_append, List.head?_cons, Option.mem_some_iff] at hc
    subst hc
    exact not_isDigitC_of_isPySpace (hws w (by simp))

theorem dropWhile_wsu {ws u : List Char} (hws : ∀ c ∈ ws, isPySpace c = true)
    (hu : u ∈ unitTokens) : (ws ++ u).dropWhile isPySpace = u := by
  obtain ⟨c0, r, huc, _, hs0, _⟩ := unitTokens_shape hu
  rw [dropWhile_append_all _ hws]
  apply dropWhile_eq_self_of_head
  intro c hc
  rw [huc] at hc
  simp only [List.head?_cons, Option.mem_some_iff] at hc
  subst hc
  exact hs0

theorem matchNum_wsu {ds ws u : List Char} (hws : ∀ c ∈ ws, isPySpace c = true)
    (hu : u ∈ unitTokens) : matchNum ds (ws ++ u) = (ds, ws ++ u) := by
  obtain ⟨c0, r0, huc, _, hs0, hdot0⟩ := unitTokens_shape hu
  cases ws with
  | nil =>
    rw [List.nil_append, huc]
    exact matchNum_plain (by simp [hdot0])
  | cons w t =>
    rw [List.cons_append]
    refine matchNum_plain ?_
    rintro ⟨hw, -⟩
    exact ne_dot_of_isPySpace (hws w (by simp)) hw

theorem matchSize_of_grammar {cs num u : List Char}
    (h : GrammarMatch cs num u) : matchSize cs = some (num, u) := by
  obtain ⟨ws, hcs, hnum, hws, hu⟩ := h
  rcases hnum with ⟨hne, hdig⟩ | ⟨a, b, hab, ⟨hane, hadig⟩, ⟨hbne, hbdig⟩⟩
  · -- integer numeric token
    have ht : cs.takeWhile isDigitC = num := by
      rw [hcs, List.append_assoc, takeWhile_append_all _ hdig,
        takeWhile_eq_nil_of_head (head_wsu_not_digit hws hu), List.append_nil]
    have hd : cs.dropWhile isDigitC = ws ++ u := by
      rw [hcs, List.append_assoc, dropWhile_append_all _ hdig,
        dropWhile_eq_self_of_head (head_wsu_not_digit hws hu)]
    rw [matchSize_eq, ht, hd, matchNum_wsu hws hu]
    rw [if_neg hne, if_pos (by rw [dropWhile_wsu hws hu]; exact hu)]
    rw [dropWhile_wsu hws hu]
  · -- decimal numeric token `a ++ '.' :: b`
    subst hab
    have hcs' : cs = a ++ '.' :: (b ++ ws ++ u) := by
      rw [hcs]
      simp [List.append_assoc]
    have ht : cs.takeWhile isDigitC = a := by
      rw [hcs', takeWhile_append_all _ hadig,
        List.takeWhile_cons_of_neg (by decide), List.append_nil]
    have hd : cs.dropWhile isDigitC = '.' :: (b ++ ws ++ u) := by
      rw [hcs', dropWhile_append_all _ hadig,
        List.dropWhile_cons_of_neg (by decide)]
    have htb : (b ++ ws ++ u).takeWhile isDigitC = b := by
      rw [List.append_assoc, takeWhile_append_all _ hbdig,
        takeWhile_eq_nil_of_head (head_wsu_not_digit hws hu), List.append_nil]
    have hdb : (b ++ ws ++ u).dropWhile isDigitC = ws ++ u := by
      rw [List.append_assoc, dropWhile_append_all _ hbdig,
        dropWhile_eq_self_of_head (head_wsu_not_digit hws hu)]
    rw [matchSize_eq, ht, hd, matchNum_dot (by rw [htb]; exact hbne), htb, hdb]
    rw [if_neg hane, if_pos (by rw [dropWhile_wsu hws hu]; exact hu)]
    rw [dropWhile_wsu hws hu]

theorem grammar_of_matchSize {cs num u : List Char}
    (h : matchSize cs = some (num, u)) : GrammarMatch cs num u := by
  rw [matchSize_eq] at h
  by_cases hds : cs.takeWhile isDigitC = []
  · rw [if_pos hds] at h
    exact absurd h (by simp)
  · rw [if_neg hds] at h
    have hdig : ∀ c ∈ cs.takeWhile isDigitC, isDigitC c = true :=
      fun c hc => List.mem_takeWhile_imp hc
    have hsplit : cs = cs.takeWhile isDigitC ++ cs.dropWhile isDigitC :=
      (List.takeWhile_append_dropWhile _ _).symm
    rcases hrest : cs.dropWhile isDigitC with _ | ⟨c, r⟩
    · rw [hrest, matchNum_nil] at h
      simp only [List.dropWhile_nil] at h
      rw [if_neg (by decide)] at h
      exact absurd h (by simp)
    · rw [hrest] at h
      by_cases hdot : c = '.' ∧ r.takeWhile isDigitC ≠ []
      · obtain ⟨hc', hfs⟩ := hdot
        subst hc'
        rw [matchNum_dot hfs] at h
        split at h
        · next hmem =>
          simp only [Option.some.injEq, Prod.mk.injEq] at h
          obtain ⟨hnum, hu⟩ := h
          refine ⟨(r.dropWhile isDigitC).takeWhile isPySpace, ?_, ?_, ?_, ?_⟩
          · rw [hsplit, hrest, ← hnum, ← hu]
            have hr : r = r.takeWhile isDigitC ++ r.dropWhile isDigitC :=
              (List.takeWhile_append_dropWhile _ _).symm
            have hr2 : r.dropWhile isDigitC =
                (r.dropWhile isDigitC).takeWhile isPySpace ++
                  (r.dropWhile isDigitC).dropWhile isPySpace :=
              (List.takeWhile_append_dropWhile _ _).symm
            conv_lhs => rw [hr, hr2]
            simp [List.append_assoc]
          · exact Or.inr ⟨cs.takeWhile isDigitC, r.takeWhile isDigitC,
              hnum.symm, ⟨hds, hdig⟩,
              ⟨hfs, fun c hc => List.mem_takeWhile_imp hc⟩⟩
          · exact fun c hc => List.mem_takeWhile_imp hc
          · rw [← hu]
            exact hmem
        · exact absurd h (by simp)
      · rw [matchNum_plain hdot] at h
        split at h
        · next hmem =>
          simp only [Option.some.injEq, Prod.mk.injEq] at h
          obtain ⟨hnum, hu⟩ := h
          refine ⟨(c :: r).takeWhile isPySpace, ?_, ?_, ?_, ?_⟩
          · rw [hsplit, hrest, ← hnum, ← hu]
            have hr2 : c :: r =
                (c :: r).takeWhile isPySpace ++ (c :: r).dropWhile isPySpace :=
              (List.takeWhile_append_dropWhile _ _).symm
            conv_lhs => rw [hr2]
            simp [List.append_assoc]
          · exact Or.inl ⟨by rw [← hnum]; exact hds, by rw [← hnum]; exact hdig⟩
          · exact fun c hc => List.mem_takeWhile_imp hc
          · rw [← hu]
            exact hmem
        · exact absurd h (by simp)

theorem matchSize_iff_grammar {cs num u : List Char} :
    matchSize cs = some (num, u) ↔ GrammarMatch cs num u :=
  ⟨grammar_of_matchSize, matchSize_of_grammar⟩

theorem strToRat_nonneg {cs : List Char} {v : ℚ} (h : strToRat cs = some v) :
    0 ≤ v := by
  rw [strToRat] at h
  split at h
  · exact absurd h (by simp)
  · split at h
    · simp only [Option.some.injEq] at h
      subst h
      positivity
    · split at h
      · simp only [Option.some.injEq] at h
        subst h
        positivity
      · exact absurd h (by simp)

theorem strToRat_of_numShape {num : List Char} (h : NumShape num) :
    ∃ v : ℚ, strToRat num = some v ∧ 0 ≤ v := by
  rcases h with ⟨hne, hdig⟩ | ⟨a, b, hab, ⟨hane, hadig⟩, ⟨hbne, hbdig⟩⟩
  · exact ⟨_, strToRat_int hne hdig, by positivity⟩
  · subst hab
    exact ⟨_, strToRat_dec hane hadig hbne hbdig, by positivity⟩

theorem sizeUnits?_of_unitTokens {u : List Char} (hu : u ∈ unitTokens) :
    ∃ m : ℕ, sizeUnits? u = some m ∧ 1 ≤ m ∧ m ≤ 1024 ^ 4 := by
  fin_cases hu
  · exact ⟨1, by decide, by norm_num⟩
  · exact ⟨1024, by decide, by norm_num⟩
  · exact ⟨1024 ^ 2, by decide, by norm_num⟩
  · exact ⟨1024 ^ 3, by decide, by norm_num⟩
  · exact ⟨1024 ^ 4, by decide, by norm_num⟩

theorem grammarMatch_ne_nil {cs num u : List Char}
    (h : GrammarMatch cs num u) : cs ≠ [] := by
  obtain ⟨ws, hcs, hnum, -, hu⟩ := h
  obtain ⟨c0, r0, huc, -, -, -⟩ := unitTokens_shape hu
  rw [hcs, huc]
  simp

/-! ## Evaluation lemmas for `parseCore` -/

theorem parseCore_empty : parseCore [] = .err .empty := rfl

theorem parseCore_badFormat {t : List Char} (hne : t ≠ [])
    (hm : matchSize t = none) : parseCore t = .err .badFormat := by
  rw [parseCore, if_neg hne, hm]

theorem parseCore_of_match {t num u : List Char}
    (hm : matchSize t = some (num, u)) :
    ∃ (v : ℚ) (m : ℕ), strToRat num = some v ∧ sizeUnits? u = some m ∧
      0 ≤ v ∧ 1 ≤ m ∧ m ≤ 1024 ^ 4 ∧
      parseCore t =
        if (1024 : ℚ) ^ 5 < v * m then .err .tooLarge
        else .ok ⌊v * (m : ℚ)⌋ := by
  have hg := grammar_of_matchSize hm
  obtain ⟨ws, hcs, hnum, hws, hu⟩ := hg
  obtain ⟨v, hv, hv0⟩ := strToRat_of_numShape hnum
  obtain ⟨m, hmu, hm1, hm4⟩ := sizeUnits?_of_unitTokens hu
  refine ⟨v, m, hv, hmu, hv0, hm1, hm4, ?_⟩
  rw [parseCore, if_neg (grammarMatch_ne_nil ⟨ws, hcs, hnum, hws, hu⟩)]
  simp only [hm, hv, hmu, if_neg (not_lt.mpr hv0)]
  split
  · rfl
  · rw [ratTrunc_of_nonneg (by positivity)]

theorem parseCore_ok_iff {t : List Char} :
    (∃ n, parseCore t = .ok n) ↔
      ∃ (num u : List Char) (v : ℚ) (m : ℕ), matchSize t = some (num, u) ∧
        strToRat num = some v ∧ sizeUnits? u = some m ∧
        v * m ≤ 1024 ^ 5 := by
  constructor
  · rintro ⟨n, hn⟩
    rw [parseCore] at hn
    split at hn
    · exact absurd hn (by simp)
    · rcases hmm : matchSize t with _ | ⟨num, u⟩
      · rw [hmm] at hn
        exact absurd hn (by simp)
      · obtain ⟨v, m, hv, hmu, hv0, -, -, heq⟩ := parseCore_of_match hmm
        rw [parseCore] at heq
        rw [if_neg (by assumption)] at heq
        rw [hmm] at hn heq
        rw [hn] at heq
        refine ⟨num, u, v, m, rfl, hv, hmu, ?_⟩
        by_contra hgt
        rw [if_pos (lt_of_not_le hgt)] at heq
        exact absurd heq (by simp)
  · rintro ⟨num, u, v, m, hmm, hv, hmu, hle⟩
    obtain ⟨v', m', hv', hmu', -, -, -, heq⟩ := parseCore_of_match hmm
    rw [hv] at hv'
    rw [hmu] at hmu'
    obtain rfl : v = v' := by injection hv'
    obtain rfl : m = m' := by injection hmu'
    rw [heq, if_neg (not_lt.mpr hle)]
    exact ⟨_, rfl⟩

/-! ## `normalize` and upper-casing -/

/-- Model of `s.upper()` applied to a whole Python string. -/
def pyUpperStr (s : String) : String :=
  ⟨s.data.map pyUpperChar⟩

theorem dropWhile_space_map_upper (l : List Char) :
    (l.map pyUpperChar).dropWhile isPySpace =
      (l.dropWhile isPySpace).map pyUpperChar := by
  induction l with
  | nil => rfl
  | cons a t ih =>
    by_cases h : isPySpace a = true
    · rw [List.map_cons, List.dropWhile_cons_of_pos (by rw [isPySpace_pyUpperChar]; exact h),
        List.dropWhile_cons_of_pos h, ih]
    · rw [List.map_cons, List.dropWhile_cons_of_neg (by rw [isPySpace_pyUpperChar]; exact h),
        List.dropWhile_cons_of_neg h, List.map_cons]

theorem pyStrip_map_upper (l : List Char) :
    pyStrip (l.map pyUpperChar) = (pyStrip l).map pyUpperChar := by
  rw [pyStrip, pyStrip, dropWhile_space_map_upper, ← List.map_reverse,
    dropWhile_space_map_upper, ← List.map_reverse]

theorem map_upper_idem (l : List Char) :
    (l.map pyUpperChar).map pyUpperChar = l.map pyUpperChar := by
  rw [List.map_map]
  apply List.map_congr_left
  intro c _
  exact pyUpperChar_idem c

theorem normalize_pyUpperStr (s : String) :
    normalize (pyUpperStr s) = normalize s := by
  rw [normalize, normalize, pyUpperStr]
  show (pyStrip ((s.data.map pyUpperChar))).map pyUpperChar = _
  rw [pyStrip_map_upper, map_upper_idem]

/-! ## Unit selection in the formatter -/

theorem sizeUnits?_B : sizeUnits? ['B'] = some 1 := by decide

theorem sizeUnits?_KB : sizeUnits? ['K', 'B'] = some 1024 := by decide

theorem sizeUnits?_MB : sizeUnits? ['M', 'B'] = some (1024 ^ 2) := by decide

theorem sizeUnits?_GB : sizeUnits? ['G', 'B'] = some (1024 ^ 3) := by decide

theorem sizeUnits?_TB : sizeUnits? ['T', 'B'] = some (1024 ^ 4) := by decide

/-- The loop of lines 122–128 is the `find?` of the first unit in
`UNIT_ORDER` whose multiplier is at most the byte count. -/
theorem humanLoop_eq_find (b d : Nat) (l : List (List Char)) :
    humanLoop b d l =
      (l.find? fun u => decide ((sizeUnits? u).getD 0 ≤ b)).map
        fun u => fmtEntry b ((sizeUnits? u).getD 0) u d := by
  induction l with
  | nil => rfl
  | cons u rest ih =>
    by_cases h : (sizeUnits? u).getD 0 ≤ b
    · rw [humanLoop, if_pos h, List.find?_cons_of_pos _ (by simpa using h)]
      rfl
    · rw [humanLoop, if_neg h, List.find?_cons_of_neg _ (by simpa using h), ih]

/-- Explicit unfolding of the unit-selection loop on `UNIT_ORDER`. -/
theorem humanLoop_unit_order (b d : Nat) :
    humanLoop b d UNIT_ORDER =
      if 1024 ^ 4 ≤ b then some (fmtEntry b (1024 ^ 4) ['T', 'B'] d)
      else if 1024 ^ 3 ≤ b then some (fmtEntry b (1024 ^ 3) ['G', 'B'] d)
      else if 1024 ^ 2 ≤ b then some (fmtEntry b (1024 ^ 2) ['M', 'B'] d)
      else if 1024 ≤ b then some (fmtEntry b 1024 ['K', 'B'] d)
      else if 1 ≤ b then some (fmtEntry b 1 ['B'] d)
      else none := by
  rw [UNIT_ORDER]
  rw [humanLoop, sizeUnits?_TB, Option.getD_some]
  split
  · rfl
  · rw [humanLoop, sizeUnits?_GB, Option.getD_some]
    split
    · rfl
    · rw [humanLoop, sizeUnits?_MB, Option.getD_some]
      split
      · rfl
      · rw [humanLoop, sizeUnits?_KB, Option.getD_some]
        split
        · rfl
        · rw [humanLoop, sizeUnits?_B, Option.getD_some]
          split
          · rfl
          · rw [humanLoop]

/-! ## Shape of the fixed-point image and of the stripping -/

theorem natToDigits_lt_ten {n : Nat} (h : n < 10) :
    natToDigits n = [digitChar n] := by
  rw [natToDigits_eq, if_pos h]

theorem formatFixed_one (q : ℚ) :
    formatFixed q 1 =
      natToDigits ((roundHalfEven (q * 10)).toNat / 10) ++
        '.' :: [digitChar ((roundHalfEven (q * 10)).toNat % 10)] := by
  rw [formatFixed]
  rw [if_neg (by norm_num)]
  simp only [pow_one]
  rw [natToDigits_lt_ten (Nat.mod_lt _ (by norm_num))]
  simp

theorem dropWhile_eq_self_of_all {p : Char → Bool} {l : List Char}
    (h : ∀ c ∈ l, p c = false) : l.dropWhile p = l := by
  cases l with
  | nil => rfl
  | cons a t => exact List.dropWhile_cons_of_neg (by simp [h a (by simp)])

theorem pyRstrip_nil (ch : Char) : pyRstrip [] ch = [] := rfl

theorem pyRstrip_snoc_eq (l : List Char) (ch : Char) :
    pyRstrip (l ++ [ch]) ch = pyRstrip l ch := by
  rw [pyRstrip, pyRstrip, List.reverse_append]
  simp only [List.reverse_cons, List.reverse_nil, List.nil_append,
    List.singleton_append]
  rw [List.dropWhile_cons_of_pos (by simp)]

theorem pyRstrip_snoc_ne {a ch : Char} (h : a ≠ ch) (l : List Char) :
    pyRstrip (l ++ [a]) ch = l ++ [a] := by
  rw [pyRstrip, List.reverse_append]
  simp only [List.reverse_cons, List.reverse_nil, List.nil_append,
    List.singleton_append]
  rw [List.dropWhile_cons_of_neg (by simp [h])]
  simp

theorem pyRstrip_eq_self_of_all {l : List Char} {ch : Char}
    (h : ∀ c ∈ l, c ≠ ch) : pyRstrip l ch = l := by
  rw [pyRstrip, dropWhile_eq_self_of_all, List.reverse_reverse]
  intro c hc
  simp only [decide_eq_false_iff_not]
  exact h c (List.mem_reverse.mp hc)

theorem digitChar_zero : digitChar 0 = '0' := rfl

theorem digitChar_ne_zero_char {n : Nat} (h1 : n < 10) (h2 : n ≠ 0) :
    digitChar n ≠ '0' := by
  intro he
  have := toNat_digitChar_sub h1
  rw [he] at this
  exact h2 (by simpa using this.symm)

theorem mem_natToDigits_ne_dot {n : Nat} {c : Char} (hc : c ∈ natToDigits n) :
    c ≠ '.' :=
  ne_dot_of_isDigitC (isDigitC_of_mem_natToDigits n c hc)

/-- Stripping when the rounded fraction digit is zero: `"x.0"` loses
both the zero and the point. -/
theorem stripTrail_frac_zero {A : List Char}
    (hA : ∀ c ∈ A, isDigitC c = true) :
    stripTrail (A ++ '.' :: [digitChar 0]) = A := by
  rw [stripTrail, digitChar_zero]
  have h1 : A ++ '.' :: ['0'] = (A ++ ['.']) ++ ['0'] := by simp
  rw [h1, pyRstrip_snoc_eq, pyRstrip_snoc_ne (by decide),
    pyRstrip_snoc_eq, pyRstrip_eq_self_of_all
      fun c hc => ne_dot_of_isDigitC (hA c hc)]

/-- Stripping when the rounded fraction digit is non-zero: the string
is unchanged. -/
theorem stripTrail_frac_nonzero {A : List Char} {n : Nat}
    (h1 : n < 10) (h2 : n ≠ 0) :
    stripTrail (A ++ '.' :: [digitChar n]) = A ++ '.' :: [digitChar n] := by
  have hs : A ++ '.' :: [digitChar n] = (A ++ ['.']) ++ [digitChar n] := by simp
  rw [stripTrail, hs, pyRstrip_snoc_ne (digitChar_ne_zero_char h1 h2),
    pyRstrip_snoc_ne (ne_dot_of_isDigitC (isDigitC_digitChar n))]

/-! ## Value of the stripped fixed-point image -/


theorem digitsToNat_single (c : Char) : digitsToNat [c] = c.toNat - 48 := by
  rw [digitsToNat]
  simp [List.foldl]

theorem natToDigits_cons (n : Nat) :
    ∃ c t, natToDigits n = c :: t ∧ isDigitC c = true := by
  cases h : natToDigits n with
  | nil => exact absurd h (natToDigits_ne_nil n)
  | cons c t =>
    exact ⟨c, t, rfl, isDigitC_of_mem_natToDigits n c (h ▸ List.mem_cons_self c t)⟩

theorem strip_formatFixed_spec (q : ℚ) :
    ∃ num : List Char,
      stripTrail (formatFixed q 1) = num ∧
      NumShape num ∧
      strToRat num = some (((roundHalfEven (q * 10)).toNat : ℚ) / 10) ∧
      (∀ c ∈ num, isDigitC c = true ∨ c = '.') ∧
      (∃ c t, num = c :: t ∧ isDigitC c = true) := by
  have hfp : (roundHalfEven (q * 10)).toNat % 10 < 10 := Nat.mod_lt _ (by norm_num)
  set scaled := (roundHalfEven (q * 10)).toNat with hscaled
  set ip := scaled / 10 with hip
  set fp := scaled % 10 with hfp2
  have hdm : 10 * ip + fp = scaled := Nat.div_add_mod scaled 10
  have hAdig : ∀ c ∈ natToDigits ip, isDigitC c = true :=
    isDigitC_of_mem_natToDigits ip
  have hAne : natToDigits ip ≠ [] := natToDigits_ne_nil ip
  have hval : ((ip : ℚ)) + (fp : ℚ) / 10 = (scaled : ℚ) / 10 := by
    have h0 : ((10 * ip + fp : ℕ) : ℚ) = (scaled : ℚ) := by exact_mod_cast hdm
    push_cast at h0
    field_simp
    linarith
  rw [formatFixed_one]
  by_cases hz : fp = 0
  · refine ⟨natToDigits ip, ?_, Or.inl ⟨hAne, hAdig⟩, ?_, ?_, natToDigits_cons ip⟩
    · rw [← hfp2, hz]
      exact stripTrail_frac_zero hAdig
    · rw [strToRat_int hAne hAdig, digitsToNat_natToDigits]
      have : (scaled : ℚ) = 10 * ip := by
        rw [← hdm, hz]
        push_cast
        ring
      rw [this]
      congr 1
      field_simp
    · intro c hc
      exact Or.inl (hAdig c hc)
  · refine ⟨natToDigits ip ++ '.' :: [digitChar fp], ?_, ?_, ?_, ?_, ?_⟩
    · rw [← hfp2]
      exact stripTrail_frac_nonzero hfp hz
    · exact Or.inr ⟨natToDigits ip, [digitChar fp], rfl, ⟨hAne, hAdig⟩,
        ⟨by simp, by simp [isDigitC_digitChar]⟩⟩
    · rw [strToRat_dec hAne hAdig (by simp) (by simp [isDigitC_digitChar])]
      rw [digitsToNat_natToDigits, digitsToNat_single, toNat_digitChar_sub hfp]
      simp only [List.length_singleton, pow_one]
      rw [hval]
    · intro c hc
      rcases List.mem_append.mp hc with h1 | h1
      · exact Or.inl (hAdig c h1)
      · rcases List.mem_cons.mp h1 with h2 | h2
        · exact Or.inr h2
        · simp only [List.mem_singleton] at h2
          subst h2
          exact Or.inl (isDigitC_digitChar fp)
    · obtain ⟨c, t, hct, hcd⟩ := natToDigits_cons ip
      exact ⟨c, t ++ '.' :: [digitChar fp], by rw [hct]; rfl, hcd⟩

/-! ## Round-trip core -/


theorem pyStrip_eq_self {l : List Char}
    (h1 : ∀ c ∈ l.head?, isPySpace c = false)
    (h2 : ∀ c ∈ l.reverse.head?, isPySpace c = false) : pyStrip l = l := by
  rw [pyStrip, dropWhile_eq_self_of_head h1, dropWhile_eq_self_of_head h2,
    List.reverse_reverse]

theorem map_upper_eq_self {l : List Char}
    (h : ∀ c ∈ l, ¬(97 ≤ c.toNat ∧ c.toNat ≤ 122)) :
    l.map pyUpperChar = l := by
  have h2 : ∀ c ∈ l, pyUpperChar c = id c := fun c hc => pyUpperChar_eq_self (h c hc)
  rw [List.map_congr_left h2, List.map_id]

theorem unitTokens_chars {u : List Char} (hu : u ∈ unitTokens) :
    ∀ c ∈ u, 66 ≤ c.toNat ∧ c.toNat ≤ 84 := by
  fin_cases hu <;> decide

theorem unitTokens_reverse {u : List Char} (hu : u ∈ unitTokens) :
    ∃ u', u.reverse = 'B' :: u' := by
  fin_cases hu
  · exact ⟨[], rfl⟩
  · exact ⟨['K'], rfl⟩
  · exact ⟨['M'], rfl⟩
  · exact ⟨['G'], rfl⟩
  · exact ⟨['T'], rfl⟩

theorem isDigitC_toNat {c : Char} (h : isDigitC c = true) :
    48 ≤ c.toNat ∧ c.toNat ≤ 57 := by
  rw [isDigitC, Bool.and_eq_true, decide_eq_true_eq, decide_eq_true_eq] at h
  exact h

/-- Normalisation is the identity on a formatter output
`num ++ " " ++ unit`. -/
theorem normalize_fmt {num u : List Char} (hu : u ∈ unitTokens)
    (hclass : ∀ c ∈ num, isDigitC c = true ∨ c = '.')
    (hhead : ∃ c t, num = c :: t ∧ isDigitC c = true) :
    normalize ⟨num ++ [' '] ++ u⟩ = num ++ [' '] ++ u := by
  obtain ⟨c0, t0, hnum0, hc0⟩ := hhead
  rw [normalize]
  show (pyStrip (num ++ [' '] ++ u)).map pyUpperChar = _
  rw [pyStrip_eq_self]
  · apply map_upper_eq_self
    intro c hc
    rcases List.mem_append.mp hc with hc1 | hc2
    · rcases List.mem_append.mp hc1 with hc3 | hc4
      · rcases hclass c hc3 with hd | hdot
        · have := isDigitC_toNat hd
          omega
        · subst hdot
          decide
      · simp only [List.mem_singleton] at hc4
        subst hc4
        decide
    · have := unitTokens_chars hu c hc2
      omega
  · intro c hc
    rw [hnum0] at hc
    simp only [List.cons_append, List.head?_cons, Option.mem_some_iff] at hc
    subst hc
    exact not_isPySpace_of_isDigitC hc0
  · intro c hc
    obtain ⟨u', hu'⟩ := unitTokens_reverse hu
    rw [List.reverse_append, hu'] at hc
    simp only [List.cons_append, List.head?_cons, Option.mem_some_iff] at hc
    subst hc
    decide

/-- Parsing the output of the formatter: core round-trip result.  Under
the hypotheses `m` is the multiplier of the selected unit `u` and
`m ≤ b ≤ 1024·m`; the parsed value differs from `b` by at most
`m/20 + 1`. -/
theorem parse_fmtEntry {b m : ℕ} {u : List Char} (hu : u ∈ unitTokens)
    (hmu : sizeUnits? u = some m) (hm1 : 1 ≤ m) (hmb : m ≤ b)
    (hbound : b ≤ 1024 * m) :
    ∃ n : ℤ, parse_size_to_bytes (.str ⟨fmtEntry b m u 1⟩) = .ok n ∧
      0 ≤ n ∧ |(n : ℚ) - (b : ℚ)| ≤ (m : ℚ) / 20 + 1 := by
  have hm0 : (0 : ℚ) < (m : ℚ) := by exact_mod_cast hm1
  set q : ℚ := (b : ℚ) / (m : ℚ) with hq
  have hq1 : 1 ≤ q := (le_div_iff₀ hm0).mpr (by rw [one_mul]; exact_mod_cast hmb)
  have hq2 : q ≤ 1024 := by
    rw [hq, div_le_iff₀ hm0]
    exact_mod_cast hbound
  obtain ⟨num, hstrip, hshape, hval, hclass, hhead⟩ := strip_formatFixed_spec q
  have hfmt : fmtEntry b m u 1 = num ++ [' '] ++ u := by
    rw [fmtEntry, hstrip]
    simp
  have hg : GrammarMatch (fmtEntry b m u 1) num u := by
    refine ⟨[' '], by rw [hfmt], hshape, ?_, hu⟩
    intro c hc
    simp only [List.mem_singleton] at hc
    subst hc
    decide
  have hmatch : matchSize (fmtEntry b m u 1) = some (num, u) :=
    matchSize_of_grammar hg
  have hnorm : normalize ⟨fmtEntry b m u 1⟩ = fmtEntry b m u 1 := by
    conv_lhs => rw [hfmt]
    rw [normalize_fmt hu hclass hhead, ← hfmt]
  obtain ⟨v', m', hv', hmu', hv0', hm1', hm4', heq⟩ := parseCore_of_match hmatch
  rw [hval] at hv'
  rw [hmu] at hmu'
  have hvv : v' = ((roundHalfEven (q * 10)).toNat : ℚ) / 10 := by
    injection hv' with h
    exact h.symm
  have hmm2 : m' = m := by
    injection hmu' with h
    exact h.symm
  rw [hvv, hmm2] at heq
  rw [hmm2] at hm4'
  -- arithmetic bounds
  set sZ := roundHalfEven (q * 10) with hsZ
  have hx1 : (10 : ℚ) ≤ q * 10 := by linarith
  have hx2 : q * 10 ≤ 10240 := by linarith
  have hsZ0 : 0 ≤ sZ := roundHalfEven_nonneg (by linarith)
  have hsZc : ((sZ.toNat : ℕ) : ℚ) = (sZ : ℚ) := by
    have h0 := Int.toNat_of_nonneg hsZ0
    exact_mod_cast congrArg (fun z : ℤ => (z : ℚ)) h0
  have hsZle : sZ ≤ 10240 := roundHalfEven_le_of_le (by exact_mod_cast hx2)
  have habs : |(sZ : ℚ) - q * 10| ≤ 1 / 2 := abs_roundHalfEven_sub (q * 10)
  set mQ : ℚ := ((sZ.toNat : ℕ) : ℚ) / 10 with hmQ
  have hmQeq : mQ = (sZ : ℚ) / 10 := by rw [hmQ, hsZc]
  have hmQ1024 : mQ ≤ 1024 := by
    rw [hmQeq]
    have h1 : (sZ : ℚ) ≤ 10240 := by exact_mod_cast hsZle
    linarith
  have hmQq : |mQ - q| ≤ 1 / 20 := by
    rw [hmQeq]
    rw [abs_le] at habs ⊢
    constructor <;> [linarith; linarith]
  have hnb : ¬ ((1024 : ℚ) ^ 5 < mQ * (m : ℚ)) := by
    push_neg
    have hmle : (m : ℚ) ≤ (1024 : ℚ) ^ 4 := by exact_mod_cast hm4'
    calc mQ * (m : ℚ) ≤ 1024 * (m : ℚ) :=
          mul_le_mul_of_nonneg_right hmQ1024 (le_of_lt hm0)
    _ ≤ 1024 * (1024 : ℚ) ^ 4 := by nlinarith
    _ = (1024 : ℚ) ^ 5 := by ring
  rw [if_neg hnb] at heq
  refine ⟨⌊mQ * (m : ℚ)⌋, ?_, ?_, ?_⟩
  · show parseCore (normalize _) = _
    rw [hnorm, heq]
  · apply Int.floor_nonneg.mpr
    have : (0 : ℚ) ≤ mQ := by
      rw [hmQ]
      positivity
    positivity
  · have hb : q * (m : ℚ) = (b : ℚ) := div_mul_cancel₀ _ (ne_of_gt hm0)
    have hfl1 : ((⌊mQ * (m : ℚ)⌋ : ℤ) : ℚ) ≤ mQ * (m : ℚ) := Int.floor_le _
    have hfl2 : mQ * (m : ℚ) - 1 < ((⌊mQ * (m : ℚ)⌋ : ℤ) : ℚ) := by
      have h2 := Int.lt_floor_add_one (mQ * (m : ℚ))
      linarith
    have hdiff : |mQ * (m : ℚ) - (b : ℚ)| ≤ (m : ℚ) / 20 := by
      rw [← hb, ← sub_mul, abs_mul, abs_of_pos hm0]
      calc |mQ - q| * (m : ℚ) ≤ 1 / 20 * (m : ℚ) :=
            mul_le_mul_of_nonneg_right hmQq (le_of_lt hm0)
      _ = (m : ℚ) / 20 := by ring
    rw [abs_le] at hdiff ⊢
    constructor <;> [linarith; linarith]

/-! ## Unit selection and the format ranges -/


/-- The multiplier of the unit the formatter selects for `b` (1 when
the loop would fall through, which for `b = 0` matches the `"0 B"`
special case). -/
def selectedMult (b : ℕ) : ℕ :=
  ((UNIT_ORDER.find? fun u => decide ((sizeUnits? u).getD 0 ≤ b)).map
    fun u => (sizeUnits? u).getD 0).getD 1

theorem bytes_to_human_pos {b : ℕ} (hb : 0 < b) (d : ℕ) :
    bytes_to_human_readable (b : ℤ) d =
      match humanLoop b d UNIT_ORDER with
      | some out => .ok out
      | none => .ok (natToDigits b ++ ' ' :: ['B']) := by
  rw [bytes_to_human_readable, if_neg (by exact not_lt.mpr (Int.natCast_nonneg b))]
  simp only [Int.toNat_natCast]
  rw [if_neg (by omega)]

theorem format_range_TB {b : ℕ} (h : 1024 ^ 4 ≤ b) :
    bytes_to_human_readable (b : ℤ) 1 = .ok (fmtEntry b (1024 ^ 4) ['T', 'B'] 1) := by
  rw [bytes_to_human_pos (by positivity) 1, humanLoop_unit_order, if_pos h]

theorem format_range_GB {b : ℕ} (h1 : 1024 ^ 3 ≤ b) (h2 : ¬ 1024 ^ 4 ≤ b) :
    bytes_to_human_readable (b : ℤ) 1 = .ok (fmtEntry b (1024 ^ 3) ['G', 'B'] 1) := by
  rw [bytes_to_human_pos (by positivity) 1, humanLoop_unit_order, if_neg h2, if_pos h1]

theorem format_range_MB {b : ℕ} (h1 : 1024 ^ 2 ≤ b) (h2 : ¬ 1024 ^ 3 ≤ b) :
    bytes_to_human_readable (b : ℤ) 1 = .ok (fmtEntry b (1024 ^ 2) ['M', 'B'] 1) := by
  rw [bytes_to_human_pos (by positivity) 1, humanLoop_unit_order,
    if_neg (by omega), if_neg h2, if_pos h1]

theorem format_range_KB {b : ℕ} (h1 : 1024 ≤ b) (h2 : ¬ 1024 ^ 2 ≤ b) :
    bytes_to_human_readable (b : ℤ) 1 = .ok (fmtEntry b 1024 ['K', 'B'] 1) := by
  rw [bytes_to_human_pos (by positivity) 1, humanLoop_unit_order,
    if_neg (by omega), if_neg (by omega), if_neg h2, if_pos h1]

theorem format_range_B {b : ℕ} (h1 : 1 ≤ b) (h2 : ¬ 1024 ≤ b) :
    bytes_to_human_readable (b : ℤ) 1 = .ok (fmtEntry b 1 ['B'] 1) := by
  rw [bytes_to_human_pos (by omega) 1, humanLoop_unit_order,
    if_neg (by omega), if_neg (by omega), if_neg (by omega), if_neg h2, if_pos h1]

theorem selectedMult_TB {b : ℕ} (h : 1024 ^ 4 ≤ b) : selectedMult b = 1024 ^ 4 := by
  rw [selectedMult, UNIT_ORDER, List.find?_cons_of_pos _ (by simp [sizeUnits?_TB]; omega)]
  simp [sizeUnits?_TB]

theorem selectedMult_GB {b : ℕ} (h1 : 1024 ^ 3 ≤ b) (h2 : ¬ 1024 ^ 4 ≤ b) :
    selectedMult b = 1024 ^ 3 := by
  rw [selectedMult, UNIT_ORDER, List.find?_cons_of_neg _ (by simp [sizeUnits?_TB]; omega),
    List.find?_cons_of_pos _ (by simp [sizeUnits?_GB]; omega)]
  simp [sizeUnits?_GB]

theorem selectedMult_MB {b : ℕ} (h1 : 1024 ^ 2 ≤ b) (h2 : ¬ 1024 ^ 3 ≤ b) :
    selectedMult b = 1024 ^ 2 := by
  rw [selectedMult, UNIT_ORDER, List.find?_cons_of_neg _ (by simp [sizeUnits?_TB]; omega),
    List.find?_cons_of_neg _ (by simp [sizeUnits?_GB]; omega),
    List.find?_cons_of_pos _ (by simp [sizeUnits?_MB]; omega)]
  simp [sizeUnits?_MB]

theorem selectedMult_KB {b : ℕ} (h1 : 1024 ≤ b) (h2 : ¬ 1024 ^ 2 ≤ b) :
    selectedMult b = 1024 := by
  rw [selectedMult, UNIT_ORDER, List.find?_cons_of_neg _ (by simp [sizeUnits?_TB]; omega),
    List.find?_cons_of_neg _ (by simp [sizeUnits?_GB]; omega),
    List.find?_cons_of_neg _ (by simp [sizeUnits?_MB]; omega),
    List.find?_cons_of_pos _ (by simp [sizeUnits?_KB]; omega)]
  simp [sizeUnits?_KB]

theorem selectedMult_B {b : ℕ} (h1 : 1 ≤ b) (h2 : ¬ 1024 ≤ b) : selectedMult b = 1 := by
  rw [selectedMult, UNIT_ORDER, List.find?_cons_of_neg _ (by simp [sizeUnits?_TB]; omega),
    List.find?_cons_of_neg _ (by simp [sizeUnits?_GB]; omega),
    List.find?_cons_of_neg _ (by simp [sizeUnits?_MB]; omega),
    List.find?_cons_of_neg _ (by simp [sizeUnits?_KB]; omega),
    List.find?_cons_of_pos _ (by simp [sizeUnits?_B]; omega)]
  simp [sizeUnits?_B]


/-! ## Concrete-evaluation helpers -/

theorem parse_eval_ok (s : String) (t num u : List Char) (v : ℚ) (m : ℕ)
    (hn : normalize s = t) (hm : matchSize t = some (num, u))
    (hv : strToRat num = some v) (hmu : sizeUnits? u = some m)
    (hle : v * m ≤ 1024 ^ 5) :
    parse_size_to_bytes (.str s) = .ok ⌊v * (m : ℚ)⌋ := by
  obtain ⟨v', m', hv', hmu', hv0', _, _, heq⟩ := parseCore_of_match hm
  rw [hv] at hv'
  rw [hmu] at hmu'
  have hvv : v' = v := by injection hv' with h; exact h.symm
  have hmm2 : m' = m := by injection hmu' with h; exact h.symm
  rw [hvv, hmm2] at heq
  show parseCore (normalize s) = _
  rw [hn, heq, if_neg (not_lt.mpr hle)]

theorem parse_eval_tooLarge (s : String) (t num u : List Char) (v : ℚ) (m : ℕ)
    (hn : normalize s = t) (hm : matchSize t = some (num, u))
    (hv : strToRat num = some v) (hmu : sizeUnits? u = some m)
    (hgt : 1024 ^ 5 < v * m) :
    parse_size_to_bytes (.str s) = .err .tooLarge := by
  obtain ⟨v', m', hv', hmu', hv0', _, _, heq⟩ := parseCore_of_match hm
  rw [hv] at hv'
  rw [hmu] at hmu'
  have hvv : v' = v := by injection hv' with h; exact h.symm
  have hmm2 : m' = m := by injection hmu' with h; exact h.symm
  rw [hvv, hmm2] at heq
  show parseCore (normalize s) = _
  rw [hn, heq, if_pos hgt]

theorem parse_eval_badFormat (s : String) (t : List Char)
    (hn : normalize s = t) (hne : t ≠ []) (hm : matchSize t = none) :
    parse_size_to_bytes (.str s) = .err .badFormat := by
  show parseCore (normalize s) = _
  rw [hn]
  exact parseCore_badFormat hne hm

theorem parse_zero_B : parse_size_to_bytes (.str ⟨"0 B".data⟩) = .ok 0 := by
  have h := parse_eval_ok ⟨"0 B".data⟩ ['0', ' ', 'B'] ['0'] ['B'] (0 : ℚ) 1
    (by decide) (by decide) ?_ (by decide) (by norm_num)
  · rw [h]
    norm_num
  · rw [strToRat_int (by decide) (by decide)]
    norm_num [show digitsToNat ['0'] = 0 from by decide]

/-! ## Claim C1 -/


theorem validate_of_ok {inp : PyInput} {n : ℤ}
    (h : parse_size_to_bytes inp = .ok n) :
    validate_size_string inp = true := by
  rw [validate_size_string, h]

theorem C1_core {b m : ℕ} {u : List Char} (hu : u ∈ unitTokens)
    (hmu : sizeUnits? u = some m) (hm1 : 1 ≤ m) (hmb : m ≤ b)
    (hbound : b ≤ 1024 * m)
    (hfmtOk : bytes_to_human_readable (b : ℤ) 1 = .ok (fmtEntry b m u 1))
    (hsel : selectedMult b = m) :
    ∃ s : List Char, bytes_to_human_readable (b : ℤ) 1 = .ok s ∧
      validate_size_string (.str ⟨s⟩) = true ∧
      ∃ n : ℤ, parse_size_to_bytes (.str ⟨s⟩) = .ok n ∧
        |(n : ℚ) - (b : ℚ)| ≤ (selectedMult b : ℚ) / 20 + 1 := by
  obtain ⟨n, hp, hn0, htol⟩ := parse_fmtEntry hu hmu hm1 hmb hbound
  exact ⟨fmtEntry b m u 1, hfmtOk, validate_of_ok hp, n, hp, by rw [hsel]; exact htol⟩

/-- Claim C1 (round-trip law): for every byte count `b ≤ 1 PB`,
formatting succeeds, `validate(format(b))` is true, and
`parse(format(b))` differs from `b` by at most the rounding tolerance
of one display step in the selected unit (`mult/20`, half of one tenth
of the unit) plus one byte of truncation. -/
theorem C1_round_trip (b : ℕ) (hb : b ≤ 1024 ^ 5) :
    ∃ s : List Char, bytes_to_human_readable (b : ℤ) 1 = .ok s ∧
      validate_size_string (.str ⟨s⟩) = true ∧
      ∃ n : ℤ, parse_size_to_bytes (.str ⟨s⟩) = .ok n ∧
        |(n : ℚ) - (b : ℚ)| ≤ (selectedMult b : ℚ) / 20 + 1 := by
  by_cases h0 : b = 0
  · subst h0
    refine ⟨"0 B".data, ?_, validate_of_ok parse_zero_B, 0, parse_zero_B, by norm_num; positivity⟩
    rw [bytes_to_human_readable, if_neg (by norm_num)]
    norm_num
  · by_cases h4 : 1024 ^ 4 ≤ b
    · exact C1_core (by decide) sizeUnits?_TB (by norm_num) h4
        (by calc b ≤ 1024 ^ 5 := hb
            _ = 1024 * 1024 ^ 4 := by norm_num)
        (format_range_TB h4) (selectedMult_TB h4)
    · by_cases h3 : 1024 ^ 3 ≤ b
      · exact C1_core (by decide) sizeUnits?_GB (by norm_num) h3
          (by omega) (format_range_GB h3 h4) (selectedMult_GB h3 h4)
      · by_cases h2 : 1024 ^ 2 ≤ b
        · exact C1_core (by decide) sizeUnits?_MB (by norm_num) h2
            (by omega) (format_range_MB h2 h3) (selectedMult_MB h2 h3)
        · by_cases h1 : 1024 ≤ b
          · exact C1_core (by decide) sizeUnits?_KB (by norm_num) h1
              (by omega) (format_range_KB h1 h2) (selectedMult_KB h1 h2)
          · exact C1_core (by decide) sizeUnits?_B (by norm_num) (by omega)
              (by omega) (format_range_B (by omega) h1) (selectedMult_B (by omega) h1)

theorem C1_round_trip_witness :
    ∃ s : List Char, bytes_to_human_readable ((1536 : ℕ) : ℤ) 1 = .ok s ∧
      validate_size_string (.str ⟨s⟩) = true ∧
      ∃ n : ℤ, parse_size_to_bytes (.str ⟨s⟩) = .ok n ∧
        |(n : ℚ) - ((1536 : ℕ) : ℚ)| ≤ ((selectedMult 1536 : ℕ) : ℚ) / 20 + 1 :=
  C1_round_trip 1536 (by norm_num)

/-! ## Claim C2 -/


theorem parse_ok_elim {inp : PyInput} {n : ℤ}
    (h : parse_size_to_bytes inp = .ok n) :
    ∃ (s : String) (num u : List Char) (v : ℚ) (m : ℕ),
      inp = .str s ∧ matchSize (normalize s) = some (num, u) ∧
      strToRat num = some v ∧ sizeUnits? u = some m ∧
      0 ≤ v ∧ v * m ≤ 1024 ^ 5 ∧ n = ⌊v * (m : ℚ)⌋ := by
  cases inp with
  | nonString => exact absurd h (by simp [parse_size_to_bytes])
  | str s =>
    have h2 : parseCore (normalize s) = .ok n := h
    rw [parseCore] at h2
    split at h2
    · exact absurd h2 (by simp)
    · rcases hmm : matchSize (normalize s) with _ | ⟨num, u⟩
      · rw [hmm] at h2
        exact absurd h2 (by simp)
      · obtain ⟨v, m, hv, hmu, hv0, -, -, heq⟩ := parseCore_of_match hmm
        rw [parseCore, if_neg (by assumption), hmm] at heq
        rw [hmm] at h2
        rw [h2] at heq
        refine ⟨s, num, u, v, m, rfl, hmm, hv, hmu, hv0, ?_, ?_⟩
        · by_contra hgt
          rw [if_pos (lt_of_not_le hgt)] at heq
          exact absurd heq (by simp)
        · by_cases hle : (1024 : ℚ) ^ 5 < v * m
          · rw [if_pos hle] at heq
            exact absurd heq (by simp)
          · rw [if_neg hle] at heq
            injection heq with h3

/-- Claim C2: on success the parser returns the decimal magnitude times
the unit multiplier, truncated toward zero after the multiplication
(for the non-negative product, truncation is the floor); in particular
`parse("1.5TB") = 1649267441664`, `parse("100kb") = 102400`,
`parse("1.5 KB") = 1536` and `parse("0.0001 KB") = 0`. -/
theorem C2_truncate_after_multiply :
    (∀ (inp : PyInput) (n : ℤ), parse_size_to_bytes inp = .ok n →
      ∃ (s : String) (num u : List Char) (v : ℚ) (m : ℕ),
        inp = .str s ∧ matchSize (normalize s) = some (num, u) ∧
        strToRat num = some v ∧ sizeUnits? u = some m ∧
        n = ratTrunc (v * (m : ℚ)) ∧ ratTrunc (v * (m : ℚ)) = ⌊v * (m : ℚ)⌋) ∧
    parse_size_to_bytes (.str "1.5TB") = .ok 1649267441664 ∧
    parse_size_to_bytes (.str "100kb") = .ok 102400 ∧
    parse_size_to_bytes (.str "1.5 KB") = .ok 1536 ∧
    parse_size_to_bytes (.str "0.0001 KB") = .ok 0 := by
  refine ⟨?_, ?_, ?_, ?_, ?_⟩
  · intro inp n h
    obtain ⟨s, num, u, v, m, hs, hm, hv, hmu, hv0, hle, hn⟩ := parse_ok_elim h
    have htr : ratTrunc (v * (m : ℚ)) = ⌊v * (m : ℚ)⌋ :=
      ratTrunc_of_nonneg (by positivity)
    exact ⟨s, num, u, v, m, hs, hm, hv, hmu, by rw [htr]; exact hn, htr⟩
  · have hv : strToRat ['1', '.', '5'] = some (3 / 2 : ℚ) := by
      rw [show (['1', '.', '5'] : List Char) = ['1'] ++ '.' :: ['5'] from rfl,
        strToRat_dec (by decide) (by decide) (by decide) (by decide)]
      norm_num [show digitsToNat ['1'] = 1 from by decide,
        show digitsToNat ['5'] = 5 from by decide]
    have h := parse_eval_ok "1.5TB" ['1', '.', '5', 'T', 'B'] ['1', '.', '5']
      ['T', 'B'] (3 / 2 : ℚ) (1024 ^ 4)
      (by decide) (by decide) hv sizeUnits?_TB (by norm_num)
    rw [h]
    have h2 : (3 / 2 : ℚ) * ((1024 ^ 4 : ℕ) : ℚ) = ((1649267441664 : ℤ) : ℚ) := by
      norm_num
    rw [h2, Int.floor_intCast]
  · have hv : strToRat ['1', '0', '0'] = some (100 : ℚ) := by
      rw [strToRat_int (by decide) (by decide)]
      norm_num [show digitsToNat ['1', '0', '0'] = 100 from by decide]
    have h := parse_eval_ok "100kb" ['1', '0', '0', 'K', 'B'] ['1', '0', '0']
      ['K', 'B'] (100 : ℚ) 1024
      (by decide) (by decide) hv sizeUnits?_KB (by norm_num)
    rw [h]
    have h2 : (100 : ℚ) * ((1024 : ℕ) : ℚ) = ((102400 : ℤ) : ℚ) := by norm_num
    rw [h2, Int.floor_intCast]
  · have hv : strToRat ['1', '.', '5'] = some (3 / 2 : ℚ) := by
      rw [show (['1', '.', '5'] : List Char) = ['1'] ++ '.' :: ['5'] from rfl,
        strToRat_dec (by decide) (by decide) (by decide) (by decide)]
      norm_num [show digitsToNat ['1'] = 1 from by decide,
        show digitsToNat ['5'] = 5 from by decide]
    have h := parse_eval_ok "1.5 KB" ['1', '.', '5', ' ', 'K', 'B'] ['1', '.', '5']
      ['K', 'B'] (3 / 2 : ℚ) 1024
      (by decide) (by decide) hv sizeUnits?_KB (by norm_num)
    rw [h]
    have h2 : (3 / 2 : ℚ) * ((1024 : ℕ) : ℚ) = ((1536 : ℤ) : ℚ) := by norm_num
    rw [h2, Int.floor_intCast]
  · have hv : strToRat ['0', '.', '0', '0', '0', '1'] = some (1 / 10000 : ℚ) := by
      rw [show (['0', '.', '0', '0', '0', '1'] : List Char) =
          ['0'] ++ '.' :: ['0', '0', '0', '1'] from rfl,
        strToRat_dec (by decide) (by decide) (by decide) (by decide)]
      norm_num [show digitsToNat ['0'] = 0 from by decide,
        show digitsToNat ['0', '0', '0', '1'] = 1 from by decide]
    have h := parse_eval_ok "0.0001 KB" ['0', '.', '0', '0', '0', '1', ' ', 'K', 'B']
      ['0', '.', '0', '0', '0', '1'] ['K', 'B'] (1 / 10000 : ℚ) 1024
      (by decide) (by decide) hv sizeUnits?_KB (by norm_num)
    rw [h]
    have h2 : ⌊(1 / 10000 : ℚ) * ((1024 : ℕ) : ℚ)⌋ = 0 := by
      rw [Int.floor_eq_zero_iff]
      constructor
      · positivity
      · norm_num
    rw [h2]

/-! ## Claims C2 witness, C3, C4 -/


theorem C2_truncate_after_multiply_witness :
    ∃ (s : String) (num u : List Char) (v : ℚ) (m : ℕ),
      (PyInput.str "1.5 KB") = .str s ∧
      matchSize (normalize s) = some (num, u) ∧
      strToRat num = some v ∧ sizeUnits? u = some m ∧
      (1536 : ℤ) = ratTrunc (v * (m : ℚ)) ∧
      ratTrunc (v * (m : ℚ)) = ⌊v * (m : ℚ)⌋ :=
  C2_truncate_after_multiply.1 (.str "1.5 KB") 1536
    C2_truncate_after_multiply.2.2.2.1

/-- Claim C3: the parser succeeds exactly on string inputs whose
normalisation matches the grammar `^(\d+(\.\d+)?)\s*([KMGT]?B)$` with
a value of at most 1 PB; every other input (non-string, empty or
whitespace-only, or any grammar mismatch) fails with the
invalid-format error, the only failure kind the function has. -/
theorem C3_success_characterization (inp : PyInput) :
    (∃ n, parse_size_to_bytes inp = .ok n) ↔
      ∃ (s : String) (num u : List Char) (v : ℚ) (m : ℕ),
        inp = .str s ∧ GrammarMatch (normalize s) num u ∧
        strToRat num = some v ∧ sizeUnits? u = some m ∧
        v * (m : ℚ) ≤ 1024 ^ 5 := by
  constructor
  · rintro ⟨n, hn⟩
    obtain ⟨s, num, u, v, m, hs, hm, hv, hmu, hv0, hle, -⟩ := parse_ok_elim hn
    exact ⟨s, num, u, v, m, hs, grammar_of_matchSize hm, hv, hmu, hle⟩
  · rintro ⟨s, num, u, v, m, rfl, hg, hv, hmu, hle⟩
    show ∃ n, parseCore (normalize s) = .ok n
    rw [parseCore_ok_iff]
    exact ⟨num, u, v, m, matchSize_of_grammar hg, hv, hmu, hle⟩

theorem C3_success_characterization_witness :
    ∃ n, parse_size_to_bytes (.str "10 GB") = .ok n := by
  rw [C3_success_characterization]
  refine ⟨"10 GB", ['1', '0'], ['G', 'B'], (10 : ℚ), 1024 ^ 3, rfl, ?_, ?_, sizeUnits?_GB, by norm_num⟩
  · refine ⟨[' '], by decide, Or.inl ⟨by decide, by decide⟩, by decide, by decide⟩
  · rw [strToRat_int (by decide) (by decide)]
    norm_num [show digitsToNat ['1', '0'] = 10 from by decide]

/-- Claim C4: `validate_size_string` returns `True` exactly when
`parse_size_to_bytes` would succeed on the same input, and — being a
total Boolean function, also on non-string input — it never raises:
every invalid-format failure is converted to `False`. -/
theorem C4_validate_iff_parse_ok (inp : PyInput) :
    validate_size_string inp = true ↔ ∃ n, parse_size_to_bytes inp = .ok n := by
  rw [validate_size_string]
  rcases h : parse_size_to_bytes inp with n | e
  · simp
  · simp

/-! ## Claims C5, C6 -/


/-- Claim C5: the parser rejects (with the invalid-format failure)
exactly those grammatical inputs whose byte value exceeds `1024^5`
(1 PB); a value of exactly 1 PB or less is not rejected by the limit.
`parse("1024 TB")` is exactly 1 PB and succeeds;
`parse("1025 TB")` exceeds it and fails. -/
theorem C5_one_pb_limit :
    (∀ (s : String) (num u : List Char) (v : ℚ) (m : ℕ),
      matchSize (normalize s) = some (num, u) → strToRat num = some v →
      sizeUnits? u = some m →
      (((1024 : ℚ) ^ 5 < v * (m : ℚ) →
          parse_size_to_bytes (.str s) = .err .tooLarge) ∧
        (v * (m : ℚ) ≤ 1024 ^ 5 → ∃ n, parse_size_to_bytes (.str s) = .ok n))) ∧
    parse_size_to_bytes (.str "1024 TB") = .ok 1125899906842624 ∧
    parse_size_to_bytes (.str "1025 TB") = .err .tooLarge := by
  refine ⟨?_, ?_, ?_⟩
  · intro s num u v m hm hv hmu
    constructor
    · intro hgt
      exact parse_eval_tooLarge s (normalize s) num u v m rfl hm hv hmu hgt
    · intro hle
      exact ⟨_, parse_eval_ok s (normalize s) num u v m rfl hm hv hmu hle⟩
  · have hv : strToRat ['1', '0', '2', '4'] = some (1024 : ℚ) := by
      rw [strToRat_int (by decide) (by decide)]
      norm_num [show digitsToNat ['1', '0', '2', '4'] = 1024 from by decide]
    have h := parse_eval_ok "1024 TB" ['1', '0', '2', '4', ' ', 'T', 'B']
      ['1', '0', '2', '4'] ['T', 'B'] (1024 : ℚ) (1024 ^ 4)
      (by decide) (by decide) hv sizeUnits?_TB (by norm_num)
    rw [h]
    have h2 : (1024 : ℚ) * ((1024 ^ 4 : ℕ) : ℚ) = ((1125899906842624 : ℤ) : ℚ) := by
      norm_num
    rw [h2, Int.floor_intCast]
  · have hv : strToRat ['1', '0', '2', '5'] = some (1025 : ℚ) := by
      rw [strToRat_int (by decide) (by decide)]
      norm_num [show digitsToNat ['1', '0', '2', '5'] = 1025 from by decide]
    exact parse_eval_tooLarge "1025 TB" ['1', '0', '2', '5', ' ', 'T', 'B']
      ['1', '0', '2', '5'] ['T', 'B'] (1025 : ℚ) (1024 ^ 4)
      (by decide) (by decide) hv sizeUnits?_TB (by norm_num)

theorem C5_one_pb_limit_witness :
    parse_size_to_bytes (.str "1025 TB") = .err .tooLarge := by
  have hv : strToRat ['1', '0', '2', '5'] = some (1025 : ℚ) := by
    rw [strToRat_int (by decide) (by decide)]
    norm_num [show digitsToNat ['1', '0', '2', '5'] = 1025 from by decide]
  exact (C5_one_pb_limit.1 "1025 TB" ['1', '0', '2', '5'] ['T', 'B']
    (1025 : ℚ) (1024 ^ 4) (by decide) hv sizeUnits?_TB).1 (by norm_num)

theorem fmtEntry_dvd_eq {b m : ℕ} {u : List Char} (hm0 : 0 < m) (hdvd : m ∣ b) :
    fmtEntry b m u 1 = natToDigits (b / m) ++ ' ' :: u := by
  obtain ⟨k, hk⟩ := hdvd
  subst hk
  have hmQ : (0 : ℚ) < (m : ℚ) := by exact_mod_cast hm0
  have hq : ((m * k : ℕ) : ℚ) / (m : ℚ) = (k : ℚ) := by
    push_cast
    field_simp
  rw [fmtEntry, formatFixed_one, hq]
  have h10 : (k : ℚ) * 10 = (((10 * k : ℕ) : ℤ) : ℚ) := by
    push_cast
    ring
  rw [h10, roundHalfEven_intCast, Int.toNat_natCast]
  rw [Nat.mul_div_cancel_left k (by norm_num : (0:ℕ) < 10), Nat.mul_mod_right]
  rw [stripTrail_frac_zero (isDigitC_of_mem_natToDigits k)]
  rw [Nat.mul_div_cancel_left k hm0]

theorem no_dot_entry {k : ℕ} {u : List Char} (hu : u ∈ unitTokens) :
    '.' ∉ natToDigits k ++ ' ' :: u := by
  intro hmem
  rcases List.mem_append.mp hmem with h1 | h1
  · exact mem_natToDigits_ne_dot h1 rfl
  · rcases List.mem_cons.mp h1 with h2 | h2
    · exact absurd h2 (by decide)
    · have := unitTokens_chars hu _ h2
      revert this
      decide

/-- Claim C6: when the byte count is an exact multiple of the selected
unit's multiplier the formatter's trailing-zero stripping removes the
fraction and the decimal point entirely; in particular
`format(1024) = "1 KB"`. -/
theorem C6_trailing_zero_strip :
    (∀ b : ℕ, 0 < b → selectedMult b ∣ b →
      ∃ s, bytes_to_human_readable (b : ℤ) 1 = .ok s ∧ '.' ∉ s) ∧
    bytes_to_human_readable ((1024 : ℕ) : ℤ) 1 = .ok "1 KB".data := by
  have hKB : bytes_to_human_readable ((1024 : ℕ) : ℤ) 1 = .ok "1 KB".data := by
    rw [format_range_KB (le_refl 1024) (by norm_num),
      fmtEntry_dvd_eq (by norm_num) (dvd_refl 1024), Nat.div_self (by norm_num),
      natToDigits_lt_ten (by norm_num)]
    rfl
  refine ⟨?_, hKB⟩
  intro b hb hdvd
  by_cases h4 : 1024 ^ 4 ≤ b
  · rw [selectedMult_TB h4] at hdvd
    exact ⟨_, format_range_TB h4, by
      rw [fmtEntry_dvd_eq (by norm_num) hdvd]
      exact no_dot_entry (by decide)⟩
  · by_cases h3 : 1024 ^ 3 ≤ b
    · rw [selectedMult_GB h3 h4] at hdvd
      exact ⟨_, format_range_GB h3 h4, by
        rw [fmtEntry_dvd_eq (by norm_num) hdvd]
        exact no_dot_entry (by decide)⟩
    · by_cases h2 : 1024 ^ 2 ≤ b
      · rw [selectedMult_MB h2 h3] at hdvd
        exact ⟨_, format_range_MB h2 h3, by
          rw [fmtEntry_dvd_eq (by norm_num) hdvd]
          exact no_dot_entry (by decide)⟩
      · by_cases h1 : 1024 ≤ b
        · rw [selectedMult_KB h1 h2] at hdvd
          exact ⟨_, format_range_KB h1 h2, by
            rw [fmtEntry_dvd_eq (by norm_num) hdvd]
            exact no_dot_entry (by decide)⟩
        · rw [selectedMult_B (by omega) h1] at hdvd
          exact ⟨_, format_range_B (by omega) h1, by
            rw [fmtEntry_dvd_eq (by norm_num) hdvd]
            exact no_dot_entry (by decide)⟩

theorem C6_trailing_zero_strip_witness :
    ∃ s, bytes_to_human_readable ((3145728 : ℕ) : ℤ) 1 = .ok s ∧ '.' ∉ s :=
  C6_trailing_zero_strip.1 3145728 (by norm_num)
    (by rw [selectedMult_MB (by norm_num) (by norm_num)]; norm_num)

/-! ## Claims C7, C8 -/


/-- Claim C7: `format(0) = "0 B"` exactly; every `0 < b < 1024` formats
as the decimal integer `b` followed by `" B"` with no decimal point;
and in general the formatter's loop selects the first (largest) unit in
`UNIT_ORDER` whose multiplier is `≤` the byte count. -/
theorem C7_unit_selection :
    bytes_to_human_readable 0 1 = .ok "0 B".data ∧
    (∀ b : ℕ, 0 < b → b < 1024 →
      bytes_to_human_readable (b : ℤ) 1 = .ok (natToDigits b ++ ' ' :: ['B']) ∧
      '.' ∉ natToDigits b ++ ' ' :: ['B']) ∧
    (∀ (b d : ℕ), humanLoop b d UNIT_ORDER =
      (UNIT_ORDER.find? fun u => decide ((sizeUnits? u).getD 0 ≤ b)).map
        fun u => fmtEntry b ((sizeUnits? u).getD 0) u d) := by
  refine ⟨?_, ?_, fun b d => humanLoop_eq_find b d UNIT_ORDER⟩
  · rw [bytes_to_human_readable, if_neg (by norm_num)]
    norm_num
  · intro b hb hlt
    constructor
    · rw [format_range_B (by omega) (by omega),
        fmtEntry_dvd_eq (by norm_num) (one_dvd b), Nat.div_one]
    · exact no_dot_entry (by decide)

theorem C7_unit_selection_witness :
    bytes_to_human_readable ((512 : ℕ) : ℤ) 1 = .ok "512 B".data := by
  have h := (C7_unit_selection.2.1 512 (by norm_num) (by norm_num)).1
  have h2 : natToDigits 512 = ['5', '1', '2'] := by
    rw [natToDigits_eq]
    norm_num
    rw [natToDigits_eq]
    norm_num
    rw [natToDigits_eq]
    norm_num
    decide
  rw [h2] at h
  rw [show (['5', '1', '2'] : List Char) ++ ' ' :: ['B'] = "512 B".data from by decide] at h
  exact h

/-- Claim C8: parsing is case-insensitive — upper-casing the input
never changes the result — and `parse("10 gb")`, `parse("10 GB")` and
`parse("10 Gb")` all equal `10 × 1024³` bytes. -/
theorem C8_case_insensitive :
    (∀ s : String,
      parse_size_to_bytes (.str (pyUpperStr s)) = parse_size_to_bytes (.str s)) ∧
    parse_size_to_bytes (.str "10 gb") = parse_size_to_bytes (.str "10 GB") ∧
    parse_size_to_bytes (.str "10 Gb") = parse_size_to_bytes (.str "10 GB") ∧
    parse_size_to_bytes (.str "10 GB") = .ok (10 * 1024 ^ 3) := by
  have hv : strToRat ['1', '0'] = some (10 : ℚ) := by
    rw [strToRat_int (by decide) (by decide)]
    norm_num [show digitsToNat ['1', '0'] = 10 from by decide]
  have heval : ∀ s : String, normalize s = ['1', '0', ' ', 'G', 'B'] →
      parse_size_to_bytes (.str s) = .ok 10737418240 := by
    intro s hs
    have h := parse_eval_ok s ['1', '0', ' ', 'G', 'B'] ['1', '0'] ['G', 'B']
      (10 : ℚ) (1024 ^ 3) hs (by decide) hv sizeUnits?_GB (by norm_num)
    rw [h]
    have h2 : (10 : ℚ) * ((1024 ^ 3 : ℕ) : ℚ) = ((10737418240 : ℤ) : ℚ) := by
      norm_num
    rw [h2, Int.floor_intCast]
  have h1 := heval "10 gb" (by decide)
  have h2 := heval "10 GB" (by decide)
  have h3 := heval "10 Gb" (by decide)
  refine ⟨?_, by rw [h1, h2], by rw [h3, h2], by rw [h2]; norm_num⟩
  intro s
  show parseCore (normalize (pyUpperStr s)) = parseCore (normalize s)
  rw [normalize_pyUpperStr]

/-! ## Claims C9, C10 -/


/-- Claim C9: the negative-magnitude branch of the parser (line 76) is
unreachable — the grammar admits no sign, so the parsed magnitude is
always non-negative and the parser never returns the negative-size
error; a signed input such as `"-10 GB"` is rejected by the
grammar-mismatch branch instead. -/
theorem C9_negative_branch_unreachable :
    (∀ inp : PyInput, parse_size_to_bytes inp ≠ .err .negative) ∧
    parse_size_to_bytes (.str "-10 GB") = .err .badFormat := by
  constructor
  · intro inp
    cases inp with
    | nonString => decide
    | str s =>
      show parseCore (normalize s) ≠ _
      rw [parseCore]
      split
      · simp
      · split
        · simp
        · next num u heqm =>
          split
          · simp
          · next v heqv =>
            rw [if_neg (not_lt.mpr (strToRat_nonneg heqv))]
            split
            · simp
            · dsimp only
              split
              · simp
              · simp
  · exact parse_eval_badFormat "-10 GB" ['-', '1', '0', ' ', 'G', 'B']
      (by decide) (by decide) (by decide)

/-- Claim C10: the fallback return after the formatter's unit loop
(line 131) is unreachable for positive byte counts: the last unit `B`
has multiplier 1, so the loop always returns first, and the function
yields a defined unit string. -/
theorem C10_fallback_unreachable (b d : ℕ) (hb : 0 < b) :
    ∃ out, humanLoop b d UNIT_ORDER = some out ∧
      bytes_to_human_readable (b : ℤ) d = .ok out := by
  have hsome : ∃ out, humanLoop b d UNIT_ORDER = some out := by
    rw [humanLoop_unit_order]
    split_ifs with h1 h2 h3 h4 h5
    · exact ⟨_, rfl⟩
    · exact ⟨_, rfl⟩
    · exact ⟨_, rfl⟩
    · exact ⟨_, rfl⟩
    · exact ⟨_, rfl⟩
    · omega
  obtain ⟨out, hout⟩ := hsome
  refine ⟨out, hout, ?_⟩
  rw [bytes_to_human_pos hb d, hout]

theorem C10_fallback_unreachable_witness :
    ∃ out, humanLoop 5 1 UNIT_ORDER = some out ∧
      bytes_to_human_readable ((5 : ℕ) : ℤ) 1 = .ok out :=
  C10_fallback_unreachable 5 1 (by norm_num)

end SizeUtils
